import Mathlib

/-!
Verification development for the letterboxdHueSort repository.

The development shallowly embeds, from the Python sources:

* `src/utils/csv_utils.py` — the header-pattern matcher
  (`CSV_REQUIRED_HEADERS_PATTERN` used through `re.search` with `re.VERBOSE`),
  `is_valid_letterboxd_format`, and `get_csv_sections` (including the
  `csv.DictReader` row-to-dict semantics with `restkey`/`restval` defaults);
* `src/utils/poster_utils.py` — `download_poster` (image shrink and target
  path) and the `get_posters` orchestration loop, modelled as a state machine
  over an abstract filesystem and network oracle.

A file is modelled as its list of lines (each line a `List Char` holding the
text of the line without its terminating newline), or, once parsed by the
`csv` module, as a list of rows (each row a list of cell strings).

The Python regex pattern is an alternation over the six orders of the three
literal labels `URL`, `Name`, `Year`, with `.*` between consecutive labels.
Since `re.DOTALL` is not used, `.` never matches a newline, while `re.search`
may start the match at any position.  `tripleSearch` below implements exactly
this semantics for one alternative, and `headerPatternSearch` the full
six-way alternation.
-/

/-- Literal match: `matchLit p s` holds when the character list `p` is an
initial segment of `s` (regex literal matching at the current position). -/
def matchLit : List Char → List Char → Bool
  | [], _ => true
  | p :: ps, c :: cs => (p == c) && matchLit ps cs
  | _ :: _, [] => false

/-- `seek1 c s`: the regex fragment `.*(c)` matches a prefix region of `s`,
i.e. `c` occurs in `s` after a (possibly empty) run of non-newline
characters. -/
def seek1 (c : List Char) : List Char → Bool
  | [] => matchLit c []
  | x :: rest => matchLit c (x :: rest) || ((!(x == '\n')) && seek1 c rest)

/-- `seek2 b c s`: the regex fragment `.*(b).*(c)` matches starting inside
`s`, with neither `.*` run crossing a newline. -/
def seek2 (b c : List Char) : List Char → Bool
  | [] => matchLit b [] && seek1 c []
  | x :: rest =>
      (matchLit b (x :: rest) && seek1 c (List.drop b.length (x :: rest))) ||
      ((!(x == '\n')) && seek2 b c rest)

/-- `tripleSearch a b c s`: `re.search` of the alternative `(a).*(b).*(c)`
on `s` succeeds.  The match may start at any position (so arbitrary
characters, newlines included, may precede it), but the two `.*` gaps never
contain a newline. -/
def tripleSearch (a b c : List Char) : List Char → Bool
  | [] => matchLit a [] && seek2 b c []
  | x :: rest =>
      (matchLit a (x :: rest) && seek2 b c (List.drop a.length (x :: rest))) ||
      tripleSearch a b c rest

/-- The literal label `Name` of `CSV_REQUIRED_HEADERS_PATTERN`. -/
def nameLabel : List Char := ['N', 'a', 'm', 'e']

/-- The literal label `URL` of `CSV_REQUIRED_HEADERS_PATTERN`. -/
def urlLabel : List Char := ['U', 'R', 'L']

/-- The literal label `Year` of `CSV_REQUIRED_HEADERS_PATTERN`. -/
def yearLabel : List Char := ['Y', 'e', 'a', 'r']

/-- `re.search(CSV_REQUIRED_HEADERS_PATTERN, s, re.VERBOSE)` succeeds: the
six-way alternation over all orders of the three required labels, in the
order the Python pattern lists them. -/
def headerPatternSearch (s : List Char) : Bool :=
  tripleSearch urlLabel nameLabel yearLabel s ||
  tripleSearch urlLabel yearLabel nameLabel s ||
  tripleSearch nameLabel urlLabel yearLabel s ||
  tripleSearch nameLabel yearLabel urlLabel s ||
  tripleSearch yearLabel urlLabel nameLabel s ||
  tripleSearch yearLabel nameLabel urlLabel s

/-- `''.join(lines)` where every kept line ends with `'\n'` except the last:
the lines joined by single newline characters. -/
def joinLines : List (List Char) → List Char
  | [] => []
  | [l] => l
  | l :: l' :: ls => l ++ '\n' :: joinLines (l' :: ls)

/-- `MAX_CSV_ROWS_TO_FIND_HEADERS` from `src/utils/csv_utils.py`. -/
def MAX_CSV_ROWS_TO_FIND_HEADERS : Nat := 6

/-- `is_valid_letterboxd_format` from `src/utils/csv_utils.py`: read at most
`max_lines_to_check` lines, join them, and search the joined text for the
header pattern. -/
def is_valid_letterboxd_format (fileLines : List (List Char))
    (max_lines_to_check : Nat := MAX_CSV_ROWS_TO_FIND_HEADERS) : Bool :=
  headerPatternSearch (joinLines (fileLines.take max_lines_to_check))

/-! ### Soundness and completeness of the matcher -/

theorem matchLit_iff (p s : List Char) : matchLit p s = true ↔ ∃ t, s = p ++ t := by
  induction p generalizing s with
  | nil => simp [matchLit]
  | cons a ps ih =>
    cases s with
    | nil => simp [matchLit]
    | cons c cs =>
      simp only [matchLit, Bool.and_eq_true, beq_iff_eq, ih, List.cons_append,
        List.cons.injEq]
      constructor
      · rintro ⟨rfl, t, rfl⟩
        exact ⟨t, rfl, rfl⟩
      · rintro ⟨t, rfl, rfl⟩
        exact ⟨rfl, t, rfl⟩

theorem seek1_of_matchLit (c s : List Char) (h : matchLit c s = true) :
    seek1 c s = true := by
  cases s with
  | nil => simpa [seek1] using h
  | cons x rest => simp [seek1, h]

theorem seek1_sound (c : List Char) :
    ∀ u t : List Char, '\n' ∉ u → seek1 c (u ++ c ++ t) = true := by
  intro u
  induction u with
  | nil =>
    intro t _
    exact seek1_of_matchLit c (c ++ t) ((matchLit_iff c (c ++ t)).2 ⟨t, rfl⟩)
  | cons x u' ih =>
    intro t hu
    have hx : x ≠ '\n' := fun h => hu (h ▸ List.mem_cons_self x u')
    have hu' : '\n' ∉ u' := fun h => hu (List.mem_cons_of_mem x h)
    simp only [List.cons_append, seek1, Bool.or_eq_true, Bool.and_eq_true,
      Bool.not_eq_true', beq_eq_false_iff_ne, ne_eq]
    exact Or.inr ⟨hx, ih t hu'⟩

theorem seek1_complete (c : List Char) :
    ∀ s : List Char, seek1 c s = true → ∃ u t, s = u ++ c ++ t ∧ '\n' ∉ u := by
  intro s
  induction s with
  | nil =>
    intro h
    simp only [seek1] at h
    obtain ⟨t, ht⟩ := (matchLit_iff c []).1 h
    refine ⟨[], t, ?_, by simp⟩
    simpa using ht
  | cons x rest ih =>
    intro h
    simp only [seek1, Bool.or_eq_true, Bool.and_eq_true] at h
    rcases h with h | ⟨hx, h⟩
    · obtain ⟨t, ht⟩ := (matchLit_iff c (x :: rest)).1 h
      refine ⟨[], t, ?_, by simp⟩
      simpa using ht
    · obtain ⟨u, t, hs, hu⟩ := ih h
      have hxne : x ≠ '\n' := by simpa using hx
      refine ⟨x :: u, t, by simp [hs], ?_⟩
      intro hm
      rcases List.mem_cons.1 hm with h' | h'
      · exact hxne h'.symm
      · exact hu h'

theorem seek2_sound (b c : List Char) :
    ∀ u v t : List Char, '\n' ∉ u → '\n' ∉ v →
      seek2 b c (u ++ b ++ v ++ c ++ t) = true := by
  intro u
  induction u with
  | nil =>
    intro v t _ hv
    have hm : matchLit b (b ++ (v ++ c ++ t)) = true :=
      (matchLit_iff b _).2 ⟨v ++ c ++ t, rfl⟩
    have hdrop : List.drop b.length (b ++ (v ++ c ++ t)) = v ++ c ++ t :=
      List.drop_left b (v ++ c ++ t)
    have hseek : seek1 c (v ++ c ++ t) = true := seek1_sound c v t hv
    cases hbv : (b ++ (v ++ c ++ t) : List Char) with
    | nil =>
      have hb : b = [] := (List.append_eq_nil.1 hbv).1
      have hrest : v ++ c ++ t = [] := (List.append_eq_nil.1 hbv).2
      have hvc : v ++ c = [] := (List.append_eq_nil.1 hrest).1
      have ht0 : t = [] := (List.append_eq_nil.1 hrest).2
      have hv0 : v = [] := (List.append_eq_nil.1 hvc).1
      have hc0 : c = [] := (List.append_eq_nil.1 hvc).2
      subst hb ht0 hv0 hc0
      simp [seek2, matchLit, seek1]
    | cons x rest =>
      have hgoal : (matchLit b (x :: rest) &&
          seek1 c (List.drop b.length (x :: rest))) = true := by
        rw [← hbv, hdrop, hm, hseek]
        rfl
      have : seek2 b c (x :: rest) = true := by
        simp only [seek2, Bool.or_eq_true]
        exact Or.inl hgoal
      calc seek2 b c ([] ++ b ++ v ++ c ++ t)
          = seek2 b c (b ++ (v ++ c ++ t)) := by simp [List.append_assoc]
        _ = seek2 b c (x :: rest) := by rw [hbv]
        _ = true := this
  | cons x u' ih =>
    intro v t hu hv
    have hx : x ≠ '\n' := fun h => hu (h ▸ List.mem_cons_self x u')
    have hu' : '\n' ∉ u' := fun h => hu (List.mem_cons_of_mem x h)
    have step : seek2 b c (u' ++ b ++ v ++ c ++ t) = true := ih v t hu' hv
    simp only [List.cons_append, seek2, Bool.or_eq_true, Bool.and_eq_true,
      Bool.not_eq_true', beq_eq_false_iff_ne, ne_eq]
    refine Or.inr ⟨hx, ?_⟩
    simpa [List.append_assoc] using step

theorem seek2_complete (b c : List Char) :
    ∀ s : List Char, seek2 b c s = true →
      ∃ u v t, s = u ++ b ++ v ++ c ++ t ∧ '\n' ∉ u ∧ '\n' ∉ v := by
  intro s
  induction s with
  | nil =>
    intro h
    simp only [seek2, Bool.and_eq_true] at h
    obtain ⟨t₁, ht₁⟩ := (matchLit_iff b []).1 h.1
    have hb : b = [] := by
      rcases List.append_eq_nil.1 ht₁.symm with ⟨hb, _⟩
      exact hb
    obtain ⟨u, t, hs, hu⟩ := seek1_complete c [] h.2
    refine ⟨u, [], t, ?_, hu, by simp⟩
    rw [hb]
    simpa using hs
  | cons x rest ih =>
    intro h
    simp only [seek2, Bool.or_eq_true, Bool.and_eq_true] at h
    rcases h with ⟨hm, hs1⟩ | ⟨hx, h⟩
    · obtain ⟨t₁, ht₁⟩ := (matchLit_iff b (x :: rest)).1 hm
      rw [ht₁, List.drop_left b t₁] at hs1
      obtain ⟨v, t, hvt, hv⟩ := seek1_complete c t₁ hs1
      refine ⟨[], v, t, ?_, by simp, hv⟩
      rw [ht₁, hvt]
      simp [List.append_assoc]
    · obtain ⟨u, v, t, hs, hu, hv⟩ := ih h
      have hxne : x ≠ '\n' := by simpa using hx
      refine ⟨x :: u, v, t, by simp [hs, List.append_assoc], ?_, hv⟩
      intro hm
      rcases List.mem_cons.1 hm with h' | h'
      · exact hxne h'.symm
      · exact hu h'

theorem tripleSearch_sound (a b c : List Char) :
    ∀ p u v t : List Char, '\n' ∉ u → '\n' ∉ v →
      tripleSearch a b c (p ++ a ++ u ++ b ++ v ++ c ++ t) = true := by
  intro p
  induction p with
  | nil =>
    intro u v t hu hv
    have hm : matchLit a (a ++ (u ++ b ++ v ++ c ++ t)) = true :=
      (matchLit_iff a _).2 ⟨u ++ b ++ v ++ c ++ t, rfl⟩
    have hdrop : List.drop a.length (a ++ (u ++ b ++ v ++ c ++ t)) =
        u ++ b ++ v ++ c ++ t := List.drop_left a _
    have hseek : seek2 b c (u ++ b ++ v ++ c ++ t) = true := seek2_sound b c u v t hu hv
    cases hav : (a ++ (u ++ b ++ v ++ c ++ t) : List Char) with
    | nil =>
      have ha : a = [] := (List.append_eq_nil.1 hav).1
      have hrest : u ++ b ++ v ++ c ++ t = [] := by
        have := (List.append_eq_nil.1 hav).2
        simpa [List.append_assoc] using this
      have : tripleSearch a b c [] = true := by
        simp only [tripleSearch, ha, matchLit, Bool.true_and]
        rw [← hrest]
        exact hseek
      calc tripleSearch a b c ([] ++ a ++ u ++ b ++ v ++ c ++ t)
          = tripleSearch a b c (a ++ (u ++ b ++ v ++ c ++ t)) := by
            simp [List.append_assoc]
        _ = tripleSearch a b c [] := by rw [hav]
        _ = true := this
    | cons x rest =>
      have hgoal : (matchLit a (x :: rest) &&
          seek2 b c (List.drop a.length (x :: rest))) = true := by
        rw [← hav, hdrop, hm, hseek]
        rfl
      have : tripleSearch a b c (x :: rest) = true := by
        simp only [tripleSearch, Bool.or_eq_true]
        exact Or.inl hgoal
      calc tripleSearch a b c ([] ++ a ++ u ++ b ++ v ++ c ++ t)
          = tripleSearch a b c (a ++ (u ++ b ++ v ++ c ++ t)) := by
            simp [List.append_assoc]
        _ = tripleSearch a b c (x :: rest) := by rw [hav]
        _ = true := this
  | cons x p' ih =>
    intro u v t hu hv
    have step : tripleSearch a b c (p' ++ a ++ u ++ b ++ v ++ c ++ t) = true :=
      ih u v t hu hv
    simp only [List.cons_append, tripleSearch, Bool.or_eq_true]
    refine Or.inr ?_
    simpa [List.append_assoc] using step

theorem tripleSearch_complete (a b c : List Char) :
    ∀ s : List Char, tripleSearch a b c s = true →
      ∃ p u v t, s = p ++ a ++ u ++ b ++ v ++ c ++ t ∧ '\n' ∉ u ∧ '\n' ∉ v := by
  intro s
  induction s with
  | nil =>
    intro h
    simp only [tripleSearch, Bool.and_eq_true] at h
    obtain ⟨t₁, ht₁⟩ := (matchLit_iff a []).1 h.1
    have ha : a = [] := (List.append_eq_nil.1 ht₁.symm).1
    obtain ⟨u, v, t, hs, hu, hv⟩ := seek2_complete b c [] h.2
    refine ⟨[], u, v, t, ?_, hu, hv⟩
    rw [ha]
    simpa using hs
  | cons x rest ih =>
    intro h
    simp only [tripleSearch, Bool.or_eq_true, Bool.and_eq_true] at h
    rcases h with ⟨hm, hs2⟩ | h
    · obtain ⟨t₁, ht₁⟩ := (matchLit_iff a (x :: rest)).1 hm
      rw [ht₁, List.drop_left a t₁] at hs2
      obtain ⟨u, v, t, hvt, hu, hv⟩ := seek2_complete b c t₁ hs2
      refine ⟨[], u, v, t, ?_, hu, hv⟩
      rw [ht₁, hvt]
      simp [List.append_assoc]
    · obtain ⟨p, u, v, t, hs, hu, hv⟩ := ih h
      exact ⟨x :: p, u, v, t, by simp [hs, List.append_assoc], hu, hv⟩

/-! ### Permutation case analysis -/

theorem perm2_cases {α : Type} (b c y z : α) (h : List.Perm [b, c] [y, z]) :
    (b = y ∧ c = z) ∨ (b = z ∧ c = y) := by
  have hb : b ∈ [y, z] := h.mem_iff.1 (by simp)
  rcases List.mem_cons.1 hb with hb | hb
  · subst hb
    have h' : List.Perm [c] [z] := (List.perm_cons b).1 h
    have : [c] = [z] := List.perm_singleton.1 h'
    exact Or.inl ⟨rfl, by injection this⟩
  · have hb' : b = z := by simpa using hb
    subst hb'
    have hswap : List.Perm [y, b] [b, y] := List.Perm.swap b y []
    have h' : List.Perm [b, c] [b, y] := h.trans hswap
    have h'' : List.Perm [c] [y] := (List.perm_cons b).1 h'
    have : [c] = [y] := List.perm_singleton.1 h''
    exact Or.inr ⟨rfl, by injection this⟩

theorem perm3_cases {α : Type} (a b c x y z : α) (h : List.Perm [a, b, c] [x, y, z]) :
    (a = x ∧ b = y ∧ c = z) ∨ (a = x ∧ b = z ∧ c = y) ∨
    (a = y ∧ b = x ∧ c = z) ∨ (a = y ∧ b = z ∧ c = x) ∨
    (a = z ∧ b = x ∧ c = y) ∨ (a = z ∧ b = y ∧ c = x) := by
  have ha : a ∈ [x, y, z] := h.mem_iff.1 (by simp)
  rcases List.mem_cons.1 ha with ha | ha
  · subst ha
    have h' : List.Perm [b, c] [y, z] := (List.perm_cons a).1 h
    rcases perm2_cases b c y z h' with ⟨h1, h2⟩ | ⟨h1, h2⟩
    · exact Or.inl ⟨rfl, h1, h2⟩
    · exact Or.inr (Or.inl ⟨rfl, h1, h2⟩)
  rcases List.mem_cons.1 ha with ha | ha
  · subst ha
    have hmid : List.Perm [x, a, z] [a, x, z] := List.Perm.swap a x [z]
    have h' : List.Perm [b, c] [x, z] := (List.perm_cons a).1 (h.trans hmid)
    rcases perm2_cases b c x z h' with ⟨h1, h2⟩ | ⟨h1, h2⟩
    · exact Or.inr (Or.inr (Or.inl ⟨rfl, h1, h2⟩))
    · exact Or.inr (Or.inr (Or.inr (Or.inl ⟨rfl, h1, h2⟩)))
  · have ha' : a = z := by simpa using ha
    subst ha'
    have hmid : List.Perm [x, y, a] [a, x, y] := by
      have : ([x, y] ++ a :: []).Perm (a :: ([x, y] ++ [])) := List.perm_middle
      simpa using this
    have h' : List.Perm [b, c] [x, y] := (List.perm_cons a).1 (h.trans hmid)
    rcases perm2_cases b c x y h' with ⟨h1, h2⟩ | ⟨h1, h2⟩
    · exact Or.inr (Or.inr (Or.inr (Or.inr (Or.inl ⟨rfl, h1, h2⟩))))
    · exact Or.inr (Or.inr (Or.inr (Or.inr (Or.inr ⟨rfl, h1, h2⟩))))

/-- Full characterization of the header pattern: the search succeeds exactly
when the three required labels occur, in some order, as (possibly embedded)
substrings in sequence, with no newline between the first and the last. -/
theorem headerPatternSearch_iff (s : List Char) :
    headerPatternSearch s = true ↔
      ∃ a b c p u v t, List.Perm [a, b, c] [nameLabel, urlLabel, yearLabel] ∧
        s = p ++ a ++ u ++ b ++ v ++ c ++ t ∧ '\n' ∉ u ∧ '\n' ∉ v := by
  constructor
  · intro h
    simp only [headerPatternSearch, Bool.or_eq_true] at h
    rcases h with ((((h | h) | h) | h) | h) | h
    · obtain ⟨p, u, v, t, hs, hu, hv⟩ := tripleSearch_complete _ _ _ s h
      exact ⟨urlLabel, nameLabel, yearLabel, p, u, v, t, by decide, hs, hu, hv⟩
    · obtain ⟨p, u, v, t, hs, hu, hv⟩ := tripleSearch_complete _ _ _ s h
      exact ⟨urlLabel, yearLabel, nameLabel, p, u, v, t, by decide, hs, hu, hv⟩
    · obtain ⟨p, u, v, t, hs, hu, hv⟩ := tripleSearch_complete _ _ _ s h
      exact ⟨nameLabel, urlLabel, yearLabel, p, u, v, t, by decide, hs, hu, hv⟩
    · obtain ⟨p, u, v, t, hs, hu, hv⟩ := tripleSearch_complete _ _ _ s h
      exact ⟨nameLabel, yearLabel, urlLabel, p, u, v, t, by decide, hs, hu, hv⟩
    · obtain ⟨p, u, v, t, hs, hu, hv⟩ := tripleSearch_complete _ _ _ s h
      exact ⟨yearLabel, urlLabel, nameLabel, p, u, v, t, by decide, hs, hu, hv⟩
    · obtain ⟨p, u, v, t, hs, hu, hv⟩ := tripleSearch_complete _ _ _ s h
      exact ⟨yearLabel, nameLabel, urlLabel, p, u, v, t, by decide, hs, hu, hv⟩
  · rintro ⟨a, b, c, p, u, v, t, hperm, hs, hu, hv⟩
    simp only [headerPatternSearch, Bool.or_eq_true]
    have hsound : tripleSearch a b c s = true := by
      rw [hs]
      exact tripleSearch_sound a b c p u v t hu hv
    rcases perm3_cases a b c nameLabel urlLabel yearLabel hperm with
      ⟨ha, hb, hc⟩ | ⟨ha, hb, hc⟩ | ⟨ha, hb, hc⟩ | ⟨ha, hb, hc⟩ |
      ⟨ha, hb, hc⟩ | ⟨ha, hb, hc⟩ <;> subst ha <;> subst hb <;> subst hc
    · exact Or.inl (Or.inl (Or.inl (Or.inr hsound)))
    · exact Or.inl (Or.inl (Or.inr hsound))
    · exact Or.inl (Or.inl (Or.inl (Or.inl (Or.inl hsound))))
    · exact Or.inl (Or.inl (Or.inl (Or.inl (Or.inr hsound))))
    · exact Or.inr hsound
    · exact Or.inl (Or.inr hsound)

/-! ### Lines of a joined file -/

theorem joinLines_mem_infix {l : List Char} {ls : List (List Char)} (h : l ∈ ls) :
    ∃ p q, joinLines ls = p ++ l ++ q := by
  induction ls with
  | nil => cases h
  | cons hd tl ih =>
    rcases List.mem_cons.1 h with rfl | h'
    · cases tl with
      | nil => exact ⟨[], [], by simp [joinLines]⟩
      | cons l' ls' => exact ⟨[], '\n' :: joinLines (l' :: ls'), by simp [joinLines]⟩
    · obtain ⟨p, q, hpq⟩ := ih h'
      cases tl with
      | nil => cases h'
      | cons l' ls' =>
        refine ⟨hd ++ '\n' :: p, q, ?_⟩
        simp [joinLines, hpq, List.append_assoc]

theorem matchRegion_of_append_nl :
    ∀ (p : List Char) (l m q rest : List Char), '\n' ∉ m →
      p ++ m ++ q = l ++ '\n' :: rest →
      (∃ p' q', l = p' ++ m ++ q') ∨ (∃ p' q', rest = p' ++ m ++ q') := by
  have sub : ∀ (m : List Char), '\n' ∉ m → ∀ (l q rest : List Char),
      m ++ q = l ++ '\n' :: rest → ∃ q', l = m ++ q' := by
    intro m hm
    induction m with
    | nil => intro l _ _ _; exact ⟨l, rfl⟩
    | cons ch m' ih =>
      intro l q rest heq
      have hch : ch ≠ '\n' := fun h => hm (h ▸ List.mem_cons_self ch m')
      have hm' : '\n' ∉ m' := fun h => hm (List.mem_cons_of_mem ch h)
      cases l with
      | nil =>
        simp only [List.nil_append, List.cons_append, List.cons.injEq] at heq
        exact absurd heq.1 hch
      | cons x l' =>
        simp only [List.cons_append, List.cons.injEq] at heq
        obtain ⟨q', hq'⟩ := ih hm' l' q rest heq.2
        exact ⟨q', by simp [heq.1, hq']⟩
  intro p
  induction p with
  | nil =>
    intro l m q rest hm heq
    simp only [List.nil_append] at heq
    obtain ⟨q', hq'⟩ := sub m hm l q rest heq
    exact Or.inl ⟨[], q', by simp [hq']⟩
  | cons ch p' ih =>
    intro l m q rest hm heq
    cases l with
    | nil =>
      simp only [List.nil_append, List.cons_append, List.cons.injEq] at heq
      exact Or.inr ⟨p', q, heq.2.symm⟩
    | cons x l' =>
      simp only [List.cons_append, List.cons.injEq] at heq
      rcases ih l' m q rest hm heq.2 with ⟨p'', q'', h⟩ | h
      · exact Or.inl ⟨x :: p'', q'', by simp [h]⟩
      · exact Or.inr h

theorem joinLines_infix_complete :
    ∀ (ls : List (List Char)), (∀ l ∈ ls, '\n' ∉ l) →
      ∀ (m : List Char), '\n' ∉ m → m ≠ [] →
        ∀ p q, joinLines ls = p ++ m ++ q →
          ∃ l ∈ ls, ∃ p' q', l = p' ++ m ++ q' := by
  intro ls
  induction ls with
  | nil =>
    intro _ m _ hm0 p q heq
    simp only [joinLines] at heq
    rcases (List.append_eq_nil.1 heq.symm) with ⟨h1, _⟩
    exact absurd (List.append_eq_nil.1 h1).2 hm0
  | cons hd tl ih =>
    intro hnl m hm hm0 p q heq
    cases tl with
    | nil =>
      simp only [joinLines] at heq
      exact ⟨hd, by simp, p, q, heq⟩
    | cons l' ls' =>
      simp only [joinLines] at heq
      rcases matchRegion_of_append_nl p hd m q (joinLines (l' :: ls')) hm heq.symm with
        ⟨p', q', h⟩ | ⟨p', q', h⟩
      · exact ⟨hd, by simp, p', q', h⟩
      · have hnl' : ∀ l ∈ l' :: ls', '\n' ∉ l := fun l hl =>
          hnl l (List.mem_cons_of_mem hd hl)
        obtain ⟨l, hl, hdecomp⟩ := ih hnl' m hm hm0 p' q' h
        exact ⟨l, List.mem_cons_of_mem hd hl, hdecomp⟩

/-! ### Claim-level helper lemmas for the validity check -/

theorem label_not_nil {l : List Char}
    (hl : l ∈ [nameLabel, urlLabel, yearLabel]) : l ≠ [] := by
  fin_cases hl <;> decide

theorem label_no_nl {l : List Char}
    (hl : l ∈ [nameLabel, urlLabel, yearLabel]) : '\n' ∉ l := by
  fin_cases hl <;> decide

/-- If a line (with no embedded newline) decomposes as the three required
labels in some order with arbitrary text around, the header pattern search
succeeds on that line. -/
theorem headerPatternSearch_of_decomp (line : List Char) (hnl : '\n' ∉ line)
    (h : ∃ a b c u v w x, List.Perm [a, b, c] [nameLabel, urlLabel, yearLabel] ∧
      line = u ++ a ++ v ++ b ++ w ++ c ++ x) :
    headerPatternSearch line = true := by
  obtain ⟨a, b, c, u, v, w, x, hperm, hline⟩ := h
  have hv : '\n' ∉ v := fun hmem => hnl (by
    rw [hline]
    simp only [List.append_assoc, List.mem_append]
    exact Or.inr (Or.inr (Or.inl hmem)))
  have hw : '\n' ∉ w := fun hmem => hnl (by
    rw [hline]
    simp only [List.append_assoc, List.mem_append]
    exact Or.inr (Or.inr (Or.inr (Or.inr (Or.inl hmem)))))
  exact (headerPatternSearch_iff line).2 ⟨a, b, c, u, v, w, x, hperm, hline, hv, hw⟩

/-- If the validity check succeeds on a file whose lines are newline-free,
some single line among the first `MAX_CSV_ROWS_TO_FIND_HEADERS` lines
contains the three required labels, in some order, as ordered substrings. -/
theorem valid_single_line_aux (ls : List (List Char))
    (hnl : ∀ l ∈ ls, '\n' ∉ l)
    (hvalid : is_valid_letterboxd_format ls = true) :
    ∃ line ∈ ls.take MAX_CSV_ROWS_TO_FIND_HEADERS,
      ∃ a b c u v w x, List.Perm [a, b, c] [nameLabel, urlLabel, yearLabel] ∧
        line = u ++ a ++ v ++ b ++ w ++ c ++ x := by
  unfold is_valid_letterboxd_format at hvalid
  obtain ⟨a, b, c, p, u, v, t, hperm, hs, hu, hv⟩ :=
    (headerPatternSearch_iff _).1 hvalid
  have ha : a ∈ [nameLabel, urlLabel, yearLabel] := hperm.mem_iff.1 (by simp)
  have hb : b ∈ [nameLabel, urlLabel, yearLabel] := hperm.mem_iff.1 (by simp)
  have hc : c ∈ [nameLabel, urlLabel, yearLabel] := hperm.mem_iff.1 (by simp)
  have hmnl : '\n' ∉ a ++ u ++ b ++ v ++ c := by
    simp only [List.mem_append, not_or]
    exact ⟨⟨⟨⟨label_no_nl ha, hu⟩, label_no_nl hb⟩, hv⟩, label_no_nl hc⟩
  have hm0 : (a ++ u ++ b ++ v ++ c : List Char) ≠ [] := by
    intro h0
    have : a = [] := (List.append_eq_nil.1 ((List.append_eq_nil.1
      ((List.append_eq_nil.1 ((List.append_eq_nil.1 h0).1)).1)).1)).1
    exact label_not_nil ha this
  have hnl' : ∀ l ∈ ls.take MAX_CSV_ROWS_TO_FIND_HEADERS, '\n' ∉ l :=
    fun l hl => hnl l (List.take_subset _ _ hl)
  have hs' : joinLines (ls.take MAX_CSV_ROWS_TO_FIND_HEADERS) =
      p ++ (a ++ u ++ b ++ v ++ c) ++ t := by
    rw [hs]
    simp [List.append_assoc]
  obtain ⟨line, hline, p', q', hdecomp⟩ :=
    joinLines_infix_complete (ls.take MAX_CSV_ROWS_TO_FIND_HEADERS) hnl'
      (a ++ u ++ b ++ v ++ c) hmnl hm0 p t hs'
  refine ⟨line, hline, a, b, c, p', u, v, q', hperm, ?_⟩
  rw [hdecomp]
  simp [List.append_assoc]

/-- C1: a file whose first `MAX_CSV_ROWS_TO_FIND_HEADERS` lines include a
line containing the three required labels `Name`, `URL`, `Year` in any of
the six relative orders, with arbitrary text between and around them, is
reported valid by `is_valid_letterboxd_format`; the statement quantifies
over all permutations of the label set at once. -/
theorem C1_any_permutation_accepted (ls : List (List Char)) (line : List Char)
    (hmem : line ∈ ls.take MAX_CSV_ROWS_TO_FIND_HEADERS)
    (a b c u v w x : List Char)
    (hperm : List.Perm [a, b, c] [nameLabel, urlLabel, yearLabel])
    (hline : line = u ++ a ++ v ++ b ++ w ++ c ++ x)
    (hv : '\n' ∉ v) (hw : '\n' ∉ w) :
    is_valid_letterboxd_format ls = true := by
  unfold is_valid_letterboxd_format
  obtain ⟨P, Q, hPQ⟩ := joinLines_mem_infix hmem
  refine (headerPatternSearch_iff _).2
    ⟨a, b, c, P ++ u, v, w, x ++ Q, hperm, ?_, hv, hw⟩
  rw [hPQ, hline]
  simp [List.append_assoc]

/-- Witness for C1 at a concrete one-line file `Name,URL,Year`. -/
theorem C1_witness :
    is_valid_letterboxd_format [String.data "Name,URL,Year"] = true :=
  C1_any_permutation_accepted [String.data "Name,URL,Year"]
    (String.data "Name,URL,Year") (by decide)
    nameLabel urlLabel yearLabel [] [','] [','] []
    (by decide) (by decide) (by decide) (by decide)

/-- C10: `is_valid_letterboxd_format` accepts a file only if some single
line among the first `MAX_CSV_ROWS_TO_FIND_HEADERS` lines contains all
three required labels (in some order, as ordered substrings); label
occurrences spread over different lines never make the file valid, because
`.*` in the pattern does not match a newline even though the checked lines
are concatenated before matching. -/
theorem C10_match_within_single_line (ls : List (List Char))
    (hnl : ∀ l ∈ ls, '\n' ∉ l)
    (hvalid : is_valid_letterboxd_format ls = true) :
    ∃ line ∈ ls.take MAX_CSV_ROWS_TO_FIND_HEADERS,
      ∃ a b c u v w x, List.Perm [a, b, c] [nameLabel, urlLabel, yearLabel] ∧
        line = u ++ a ++ v ++ b ++ w ++ c ++ x :=
  valid_single_line_aux ls hnl hvalid

/-- Witness for C10 at a concrete one-line valid file. -/
theorem C10_witness :
    ∃ line ∈ ([String.data "Year,URL,Name"].take MAX_CSV_ROWS_TO_FIND_HEADERS),
      ∃ a b c u v w x, List.Perm [a, b, c] [nameLabel, urlLabel, yearLabel] ∧
        line = u ++ a ++ v ++ b ++ w ++ c ++ x :=
  C10_match_within_single_line [String.data "Year,URL,Name"]
    (by decide) (by decide)

/-- C8: an empty file is invalid, and a file (with newline-free lines) in
which no single line among the first `MAX_CSV_ROWS_TO_FIND_HEADERS` lines
contains the three required labels together — in particular one whose
labels first appear together only after row 6 — is reported invalid by
`is_valid_letterboxd_format`. -/
theorem C8_invalid_beyond_window :
    is_valid_letterboxd_format [] = false ∧
    ∀ ls : List (List Char), (∀ l ∈ ls, '\n' ∉ l) →
      (∀ line ∈ ls.take MAX_CSV_ROWS_TO_FIND_HEADERS,
        ¬ ∃ a b c u v w x, List.Perm [a, b, c] [nameLabel, urlLabel, yearLabel] ∧
          line = u ++ a ++ v ++ b ++ w ++ c ++ x) →
      is_valid_letterboxd_format ls = false := by
  refine ⟨by decide, ?_⟩
  intro ls hnl hnone
  cases hval : is_valid_letterboxd_format ls with
  | false => rfl
  | true =>
    obtain ⟨line, hline, hdecomp⟩ := valid_single_line_aux ls hnl hval
    exact absurd hdecomp (hnone line hline)

/-- Witness for C8: a file whose required labels appear together only on
its seventh line is invalid. -/
theorem C8_witness :
    is_valid_letterboxd_format
      [String.data "Letterboxd list export v7", String.data "a", String.data "b",
       String.data "c", String.data "d", String.data "e",
       String.data "Name,URL,Year"] = false := by
  have h := C8_invalid_beyond_window.2
    [String.data "Letterboxd list export v7", String.data "a", String.data "b",
     String.data "c", String.data "d", String.data "e",
     String.data "Name,URL,Year"]
    (by decide)
    (fun line hline hdecomp => by
      have hlnl : '\n' ∉ line := by fin_cases hline <;> decide
      have hsearch : headerPatternSearch line = true :=
        headerPatternSearch_of_decomp line hlnl hdecomp
      fin_cases hline <;> simp_all <;> revert hsearch <;> decide)
  exact h

/-- C7 counterexample: the claim predicts that a row in which `Year` occurs
only embedded inside the longer word `Years` is not accepted, but the code
accepts it — the regex matches the labels as plain substrings.  The file
below has no standalone `Year` label (its last cell is `Years`), yet
`is_valid_letterboxd_format` returns `True`. -/
theorem C7_counterexample :
    is_valid_letterboxd_format [String.data "Date,Name,Tags,URL,Years"] = true := by
  decide

/-- C7 (amended): the header match is case-sensitive (labels are matched as
exact character sequences), but labels are matched as plain substrings, not
as standalone tokens: a line is accepted exactly when the three required
labels occur in it, in some order, as (possibly embedded) ordered
substrings with arbitrary text between and around them. -/
theorem C7_substring_match (line : List Char) (hnl : '\n' ∉ line) :
    headerPatternSearch line = true ↔
      ∃ a b c u v w x, List.Perm [a, b, c] [nameLabel, urlLabel, yearLabel] ∧
        line = u ++ a ++ v ++ b ++ w ++ c ++ x := by
  constructor
  · intro h
    obtain ⟨a, b, c, p, u, v, t, hperm, hs, hu, hv⟩ :=
      (headerPatternSearch_iff line).1 h
    exact ⟨a, b, c, p, u, v, t, hperm, hs⟩
  · exact headerPatternSearch_of_decomp line hnl

/-- Witness for C7 (amended): the pattern accepts the row
`Date,Name,Tags,URL,Years` in which `Year` occurs only inside `Years`. -/
theorem C7_witness :
    headerPatternSearch (String.data "Date,Name,Tags,URL,Years") = true :=
  (C7_substring_match (String.data "Date,Name,Tags,URL,Years") (by decide)).2
    ⟨nameLabel, urlLabel, yearLabel, String.data "Date,", String.data ",Tags,",
     String.data ",", String.data "s", by decide, by decide⟩

/-!
### Section parsing (`get_csv_sections`)

`get_csv_sections` iterates a `csv.reader` over the file's rows, joins each
row's cells with `', '` and searches the header pattern in the joined text;
the first matching row becomes `headers`, all earlier rows go to
`extra_info`, and the remaining rows are read by a `csv.DictReader` with
`fieldnames=headers`.  `csv.DictReader` (CPython defaults
`restkey=None`, `restval=None`):

* blank rows (`row == []`) are skipped;
* `d = dict(zip(fieldnames, row))`;
* if the row is shorter than `fieldnames`, the missing field names map to
  `restval` (`None`);
* if the row is longer, the excess cells are collected in a list stored
  under `restkey` (`None`).

`CellVal` models the possible dictionary values, and a dictionary is an
association list over keys `Option String` (`none` being the `None`
restkey) built by `dictInsert`, which reproduces Python dict assignment
(update in place if the key exists, append otherwise). -/

/-- A value of a `csv.DictReader` row dictionary. -/
inductive CellVal where
  | str : String → CellVal
  | null : CellVal
  | rest : List String → CellVal
deriving DecidableEq, Repr

/-- Python dict key membership for the association-list model. -/
def keyMem (d : List (Option String × CellVal)) (k : Option String) : Bool :=
  d.any (fun e => decide (e.1 = k))

/-- Python dict assignment `d[k] = v` on the association-list model:
update the existing binding in place, else append a new one. -/
def dictInsert (d : List (Option String × CellVal)) (k : Option String)
    (v : CellVal) : List (Option String × CellVal) :=
  if keyMem d k then d.map (fun e => if e.1 = k then (k, v) else e)
  else d ++ [(k, v)]

/-- One `csv.DictReader.__next__` row dictionary: `dict(zip(fieldnames,
row))`, then `restval` padding for short rows or the `restkey` entry for
long rows. -/
def dictReaderRow (fieldnames row : List String) :
    List (Option String × CellVal) :=
  let base := (List.zip fieldnames row).foldl
    (fun d p => dictInsert d (some p.1) (CellVal.str p.2)) []
  if row.length < fieldnames.length then
    (fieldnames.drop row.length).foldl
      (fun d k => dictInsert d (some k) CellVal.null) base
  else if fieldnames.length < row.length then
    dictInsert base none (CellVal.rest (row.drop fieldnames.length))
  else base

/-- All rows read by the `csv.DictReader`: blank rows are skipped, the
others become row dictionaries. -/
def dictReaderRows (fieldnames : List String) (rows : List (List String)) :
    List (List (Option String × CellVal)) :=
  (rows.filter (fun r => decide (r ≠ []))).map (dictReaderRow fieldnames)

/-- `', '.join(row)`, the text the header pattern is searched in for each
row of `get_csv_sections`. -/
def rowText (row : List String) : String := String.intercalate ", " row

/-- The header-scan loop of `get_csv_sections`: rows before the first
pattern match, the matching row if any, and the rows after it. -/
def findHeaderSplit : List (List String) →
    List (List String) × Option (List String) × List (List String)
  | [] => ([], none, [])
  | r :: rs =>
    if headerPatternSearch (rowText r).data then ([], some r, rs)
    else
      let res := findHeaderSplit rs
      (r :: res.1, res.2.1, res.2.2)

/-- The `CSVInfo` named tuple of `src/utils/csv_utils.py`. -/
structure CSVInfo where
  extra_info : List (List String)
  headers : Option (List String)
  film_info : List (List (Option String × CellVal))
deriving DecidableEq, Repr

/-- `get_csv_sections` from `src/utils/csv_utils.py`.  When no row matches
the pattern the file iterator is exhausted, so the `DictReader` yields
nothing and `film_info` is empty. -/
def get_csv_sections (rows : List (List String)) : CSVInfo :=
  let res := findHeaderSplit rows
  match res.2.1 with
  | none => ⟨res.1, none, []⟩
  | some hdr => ⟨res.1, some hdr, dictReaderRows hdr res.2.2⟩

/-- The key list of a row dictionary. -/
def rowKeys (d : List (Option String × CellVal)) : List (Option String) :=
  d.map Prod.fst

/-! ### C2: where the header row may come from -/

theorem findHeaderSplit_none (rows : List (List String))
    (h : ∀ r ∈ rows, headerPatternSearch (rowText r).data = false) :
    findHeaderSplit rows = (rows, none, []) := by
  induction rows with
  | nil => rfl
  | cons r rs ih =>
    have hr : headerPatternSearch (rowText r).data = false := h r (by simp)
    have ih' := ih (fun r' hr' => h r' (List.mem_cons_of_mem r hr'))
    simp [findHeaderSplit, hr, ih']

theorem findHeaderSplit_some (rows : List (List String)) (pre : List (List String))
    (hdr : List String) (rest : List (List String))
    (h : findHeaderSplit rows = (pre, some hdr, rest)) :
    rows = pre ++ hdr :: rest ∧ headerPatternSearch (rowText hdr).data = true ∧
      ∀ r ∈ pre, headerPatternSearch (rowText r).data = false := by
  induction rows generalizing pre with
  | nil => simp [findHeaderSplit] at h
  | cons r rs ih =>
    by_cases hr : headerPatternSearch (rowText r).data = true
    · simp only [findHeaderSplit, hr, if_true, Prod.mk.injEq] at h
      obtain ⟨h1, h2, h3⟩ := h
      subst h1
      cases h2
      subst h3
      exact ⟨rfl, hr, by simp⟩
    · have hr' : headerPatternSearch (rowText r).data = false := by
        simpa using hr
      simp only [findHeaderSplit, hr', Bool.false_eq_true, if_false,
        Prod.mk.injEq] at h
      obtain ⟨h1, h2, h3⟩ := h
      cases pre with
      | nil => simp at h1
      | cons p ps =>
        simp only [List.cons.injEq] at h1
        obtain ⟨rfl, h1⟩ := h1
        obtain ⟨hrows, hhdr, hpre⟩ := ih ps (by
          rcases hsplit : findHeaderSplit rs with ⟨a, b, c⟩
          simp only [hsplit] at h1 h2 h3
          simp [h1, h2, h3])
        refine ⟨by simp [hrows], hhdr, ?_⟩
        intro x hx
        rcases List.mem_cons.1 hx with rfl | hx'
        · exact hr'
        · exact hpre x hx'

/-- C2 counterexample input: six non-matching rows followed by a header row
in position 7, beyond the scan window used by `is_valid_letterboxd_format`. -/
def headerBeyondWindowRows : List (List String) :=
  [["r1"], ["r2"], ["r3"], ["r4"], ["r5"], ["r6"], ["Name", "URL", "Year"]]

/-- C2 counterexample: the claim predicts that `get_csv_sections` selects a
header row only among the first 6 rows, but on a file whose only matching
row is the seventh, `get_csv_sections` still selects it: the function scans
every row without any window limit (`MAX_CSV_ROWS_TO_FIND_HEADERS` is used
only by `is_valid_letterboxd_format`). -/
theorem C2_counterexample :
    get_csv_sections headerBeyondWindowRows =
      ⟨[["r1"], ["r2"], ["r3"], ["r4"], ["r5"], ["r6"]],
       some ["Name", "URL", "Year"], []⟩ := by
  decide

/-- C2 (amended): `get_csv_sections` selects as header row the first row of
the whole file (at any index, not only within the first 6 rows) whose
joined text matches the header pattern; if no row matches, it returns all
rows as `extra_info`, a null header and an empty `film_info`. -/
theorem C2_first_match_any_index (rows : List (List String)) :
    ((∀ r ∈ rows, headerPatternSearch (rowText r).data = false) →
      get_csv_sections rows = ⟨rows, none, []⟩) ∧
    (∀ hdr, (get_csv_sections rows).headers = some hdr →
      ∃ rest, rows = (get_csv_sections rows).extra_info ++ hdr :: rest ∧
        headerPatternSearch (rowText hdr).data = true ∧
        ∀ r ∈ (get_csv_sections rows).extra_info,
          headerPatternSearch (rowText r).data = false) := by
  constructor
  · intro h
    unfold get_csv_sections
    rw [findHeaderSplit_none rows h]
  · intro hdr hhdr
    rcases hsplit : findHeaderSplit rows with ⟨pre, opt, rest⟩
    cases opt with
    | none =>
      unfold get_csv_sections at hhdr
      rw [hsplit] at hhdr
      simp at hhdr
    | some hdr' =>
      unfold get_csv_sections at hhdr ⊢
      rw [hsplit] at hhdr ⊢
      simp only at hhdr
      cases hhdr
      obtain ⟨hrows, hmatch, hpre⟩ := findHeaderSplit_some rows pre hdr rest hsplit
      exact ⟨rest, hrows, hmatch, hpre⟩

/-- Witness for C2 (amended) on a concrete file with no matching row. -/
theorem C2_witness : get_csv_sections [["a"]] = ⟨[["a"]], none, []⟩ :=
  (C2_first_match_any_index [["a"]]).1 (by decide)

/-! ### C3: shape of `film_info` -/

theorem keyMem_iff (d : List (Option String × CellVal)) (k : Option String) :
    keyMem d k = true ↔ k ∈ rowKeys d := by
  constructor
  · intro h
    obtain ⟨e, he, hk⟩ := List.any_eq_true.1 h
    exact List.mem_map.2 ⟨e, he, of_decide_eq_true hk⟩
  · intro h
    obtain ⟨e, he, hk⟩ := List.mem_map.1 h
    exact List.any_eq_true.2 ⟨e, he, decide_eq_true hk⟩

theorem dictInsert_fresh (d : List (Option String × CellVal))
    (k : Option String) (v : CellVal) (h : keyMem d k = false) :
    dictInsert d k v = d ++ [(k, v)] := by
  simp [dictInsert, h]

/-- Folding Python dict assignment over entries whose keys are fresh for
the accumulator and mutually distinct appends the entries in order. -/
theorem foldl_dictInsert_fresh :
    ∀ (entries : List (Option String × CellVal))
      (d : List (Option String × CellVal)),
      (∀ e ∈ entries, keyMem d e.1 = false) →
      (entries.map Prod.fst).Nodup →
      entries.foldl (fun acc e => dictInsert acc e.1 e.2) d = d ++ entries := by
  intro entries
  induction entries with
  | nil => intro d _ _; simp
  | cons e es ih =>
    intro d hfresh hnodup
    have he : keyMem d e.1 = false := hfresh e (by simp)
    have hstep : dictInsert d e.1 e.2 = d ++ [e] := by
      rw [dictInsert_fresh d e.1 e.2 he]
    have hfresh' : ∀ e' ∈ es, keyMem (d ++ [e]) e'.1 = false := by
      intro e' he'
      have h1 : keyMem d e'.1 = false := hfresh e' (List.mem_cons_of_mem e he')
      have hne : e.1 ≠ e'.1 := by
        simp only [List.map_cons, List.nodup_cons] at hnodup
        exact fun hk => hnodup.1 (hk ▸ List.mem_map_of_mem Prod.fst he')
      simp [keyMem, List.any_append] at h1 ⊢
      exact ⟨h1, fun hk => hne hk⟩
    have hnodup' : (es.map Prod.fst).Nodup := by
      simp only [List.map_cons, List.nodup_cons] at hnodup
      exact hnodup.2
    simp only [List.foldl_cons, hstep]
    rw [ih (d ++ [e]) hfresh' hnodup']
    simp

theorem map_fst_zip_take :
    ∀ (l1 l2 : List String), (List.zip l1 l2).map Prod.fst = l1.take l2.length := by
  intro l1
  induction l1 with
  | nil => intro l2; simp
  | cons a l1' ih =>
    intro l2
    cases l2 with
    | nil => simp
    | cons b l2' => simp [List.zip_cons_cons, ih]

/-- Keys of one `DictReader` row dictionary, for duplicate-free field
names: exactly the field names (as `some`), plus a final `none` restkey
exactly when the row has more cells than there are field names. -/
theorem dictReaderRow_keys (fieldnames row : List String)
    (hnodup : fieldnames.Nodup) :
    rowKeys (dictReaderRow fieldnames row) =
      fieldnames.map some ++
        (if fieldnames.length < row.length then [Option.none] else []) := by
  have hfoldmap : (List.zip fieldnames row).foldl
      (fun d p => dictInsert d (some p.1) (CellVal.str p.2)) [] =
      ((List.zip fieldnames row).map
        (fun p => (some p.1, CellVal.str p.2))).foldl
        (fun acc e => dictInsert acc e.1 e.2) [] := by
    rw [List.foldl_map]
  have hkeys1 : (((List.zip fieldnames row).map
      (fun p => (some p.1, CellVal.str p.2))).map Prod.fst) =
      (fieldnames.take row.length).map some := by
    rw [List.map_map, ← map_fst_zip_take fieldnames row, List.map_map]
    rfl
  have hnodup_take : (fieldnames.take row.length).Nodup :=
    (List.take_sublist _ _).nodup hnodup
  have hnodup1 : (((List.zip fieldnames row).map
      (fun p => (some p.1, CellVal.str p.2))).map Prod.fst).Nodup := by
    rw [hkeys1]
    exact hnodup_take.map (Option.some_injective String)
  have hbase : (List.zip fieldnames row).foldl
      (fun d p => dictInsert d (some p.1) (CellVal.str p.2)) [] =
      (List.zip fieldnames row).map (fun p => (some p.1, CellVal.str p.2)) := by
    rw [hfoldmap, foldl_dictInsert_fresh _ [] (by intro e _; rfl) hnodup1]
    simp
  have hbase_keys : rowKeys ((List.zip fieldnames row).map
      (fun p => (some p.1, CellVal.str p.2))) =
      (fieldnames.take row.length).map some := by
    rw [rowKeys, hkeys1]
  rcases Nat.lt_trichotomy row.length fieldnames.length with hlt | heq | hgt
  · -- short row: pad the missing field names with the null restval
    have hif : ¬ fieldnames.length < row.length := Nat.not_lt.2 (Nat.le_of_lt hlt)
    have hsplitnodup := hnodup
    rw [← List.take_append_drop row.length fieldnames, List.nodup_append]
      at hsplitnodup
    obtain ⟨hnd1, hnd2, hdisj⟩ := hsplitnodup
    have hfoldmap2 : ∀ (b : List (Option String × CellVal)),
        (fieldnames.drop row.length).foldl
          (fun d k => dictInsert d (some k) CellVal.null) b =
        ((fieldnames.drop row.length).map
          (fun k => (some k, CellVal.null))).foldl
          (fun acc e => dictInsert acc e.1 e.2) b := by
      intro b
      rw [List.foldl_map]
    have hfresh2 : ∀ e ∈ (fieldnames.drop row.length).map
        (fun k => (some k, CellVal.null)),
        keyMem ((List.zip fieldnames row).map
          (fun p => (some p.1, CellVal.str p.2))) e.1 = false := by
      rintro e he
      obtain ⟨k, hk, rfl⟩ := List.mem_map.1 he
      rw [← Bool.not_eq_true, keyMem_iff, hbase_keys]
      intro hmem
      obtain ⟨k', hk', hkk'⟩ := List.mem_map.1 hmem
      have : k' = k := Option.some_injective String hkk'
      exact hdisj hk' (this ▸ hk)
    have hnodup2 : (((fieldnames.drop row.length).map
        (fun k => (some k, CellVal.null))).map Prod.fst).Nodup := by
      rw [List.map_map]
      exact hnd2.map (fun a b hab =>
        Option.some_injective String (by simpa using hab))
    have : dictReaderRow fieldnames row =
        (List.zip fieldnames row).map (fun p => (some p.1, CellVal.str p.2)) ++
        (fieldnames.drop row.length).map (fun k => (some k, CellVal.null)) := by
      unfold dictReaderRow
      rw [if_pos hlt]
      rw [hbase, hfoldmap2, foldl_dictInsert_fresh _ _ hfresh2 hnodup2]
    rw [this, if_neg hif]
    simp only [rowKeys, List.map_append, List.map_map]
    have k1 : (List.map (Prod.fst ∘ fun p => (some p.1, CellVal.str p.2))
        (fieldnames.zip row)) = List.map some (fieldnames.take row.length) := by
      rw [← List.map_map]
      exact hkeys1
    have k2 : (List.map (Prod.fst ∘ fun k => ((some k : Option String), CellVal.null))
        (fieldnames.drop row.length)) =
        List.map some (fieldnames.drop row.length) := rfl
    rw [k1, k2, ← List.map_append some, List.take_append_drop]
    simp
  · -- equal lengths: the zip covers every field name and nothing is added
    have hif1 : ¬ row.length < fieldnames.length := by omega
    have hif2 : ¬ fieldnames.length < row.length := by omega
    have : dictReaderRow fieldnames row =
        (List.zip fieldnames row).map (fun p => (some p.1, CellVal.str p.2)) := by
      unfold dictReaderRow
      rw [if_neg hif1, if_neg hif2, hbase]
    rw [this, hbase_keys, if_neg hif2]
    have : fieldnames.take row.length = fieldnames :=
      List.take_of_length_le (by omega)
    rw [this, List.append_nil]
  · -- long row: the excess cells are stored under the restkey None
    have htake : fieldnames.take row.length = fieldnames :=
      List.take_of_length_le (Nat.le_of_lt hgt)
    have hif1 : ¬ row.length < fieldnames.length := by omega
    have hfreshnone : keyMem ((List.zip fieldnames row).map
        (fun p => (some p.1, CellVal.str p.2))) none = false := by
      rw [← Bool.not_eq_true, keyMem_iff, hbase_keys]
      intro hmem
      obtain ⟨k', _, hkk'⟩ := List.mem_map.1 hmem
      exact Option.noConfusion hkk'
    have : dictReaderRow fieldnames row =
        (List.zip fieldnames row).map (fun p => (some p.1, CellVal.str p.2)) ++
        [(none, CellVal.rest (row.drop fieldnames.length))] := by
      unfold dictReaderRow
      rw [if_neg hif1, if_pos hgt, hbase,
        dictInsert_fresh _ _ _ hfreshnone]
    rw [this, if_pos hgt]
    simp only [rowKeys, List.map_append]
    rw [hkeys1, htake]
    rfl

theorem findHeaderSplit_append (pre : List (List String)) (hdr : List String)
    (rest : List (List String))
    (hpre : ∀ r ∈ pre, headerPatternSearch (rowText r).data = false)
    (hhdr : headerPatternSearch (rowText hdr).data = true) :
    findHeaderSplit (pre ++ hdr :: rest) = (pre, some hdr, rest) := by
  induction pre with
  | nil => simp [findHeaderSplit, hhdr]
  | cons r rs ih =>
    have hr : headerPatternSearch (rowText r).data = false := hpre r (by simp)
    have ih' := ih (fun r' hr' => hpre r' (List.mem_cons_of_mem r hr'))
    simp [findHeaderSplit, hr, ih']

/-- C3 counterexample input: a header row and a single data row with one
more cell than the header has columns. -/
def overflowRows : List (List String) :=
  [["Name", "URL", "Year"], ["A", "u", "1999", "extra"]]

/-- C3 counterexample: the claim predicts that every `film_info` entry's
key set equals the header labels exactly, even for data rows whose cell
count differs from the header's column count; but for a data row with more
cells than the header, `csv.DictReader` stores the excess cells under the
`None` restkey, so the entry has the extra key `none` besides the three
header labels. -/
theorem C3_counterexample :
    (get_csv_sections overflowRows).film_info.map rowKeys =
      [[some "Name", some "URL", some "Year", none]] := by
  decide

/-- C3 (amended): when `get_csv_sections` finds a header row, `film_info`
has one entry per *non-blank* subsequent row (blank rows are skipped by
`csv.DictReader`), and an entry's keys are exactly the header labels for
rows with at most as many cells as the header (missing cells are padded
with a null value under their header label), while a row with more cells
than the header gets the additional restkey `none` holding the excess
cells. -/
theorem C3_film_info_shape (pre : List (List String)) (hdr : List String)
    (rest : List (List String))
    (hpre : ∀ r ∈ pre, headerPatternSearch (rowText r).data = false)
    (hhdr : headerPatternSearch (rowText hdr).data = true)
    (hnodup : hdr.Nodup) :
    (get_csv_sections (pre ++ hdr :: rest)).headers = some hdr ∧
    (get_csv_sections (pre ++ hdr :: rest)).film_info =
      (rest.filter (fun r => decide (r ≠ []))).map (dictReaderRow hdr) ∧
    (get_csv_sections (pre ++ hdr :: rest)).film_info.length =
      (rest.filter (fun r => decide (r ≠ []))).length ∧
    ∀ r : List String, rowKeys (dictReaderRow hdr r) =
      hdr.map some ++ (if hdr.length < r.length then [Option.none] else []) := by
  have hsplit := findHeaderSplit_append pre hdr rest hpre hhdr
  have hsections : get_csv_sections (pre ++ hdr :: rest) =
      ⟨pre, some hdr, dictReaderRows hdr rest⟩ := by
    unfold get_csv_sections
    rw [hsplit]
  refine ⟨by rw [hsections], by rw [hsections]; rfl, ?_, ?_⟩
  · rw [hsections]
    simp [dictReaderRows]
  · intro r
    exact dictReaderRow_keys hdr r hnodup

/-- Witness for C3 (amended) at a concrete header and one ordinary data
row. -/
theorem C3_witness :
    (get_csv_sections ([] ++ ["Name", "URL", "Year"] :: [["A", "u", "1999"]])).headers
        = some ["Name", "URL", "Year"] ∧
    (get_csv_sections ([] ++ ["Name", "URL", "Year"] :: [["A", "u", "1999"]])).film_info
        = [dictReaderRow ["Name", "URL", "Year"] ["A", "u", "1999"]] :=
  ⟨(C3_film_info_shape [] ["Name", "URL", "Year"] [["A", "u", "1999"]]
      (by simp) (by decide) (by decide)).1,
   (C3_film_info_shape [] ["Name", "URL", "Year"] [["A", "u", "1999"]]
      (by simp) (by decide) (by decide)).2.1⟩

/-!
### Poster fetching (`get_posters`, `download_poster`)

The orchestration loop of `get_posters` in `src/utils/poster_utils.py` is
modelled as a state machine over:

* an abstract filesystem `FS`, an association list from file paths to
  saved images (lookup finds the most recent write);
* a `FetchOracle` supplying the results of the two network requests
  (`get_film_page_html` and `get_poster_contents`), each of which either
  returns data or raises `requests.exceptions.ConnectionError`, and of
  `get_poster_url` (whose HTML scraping via BeautifulSoup is an external
  collaborator; only its `Option`-valued outcome matters to the loop).

Each processed film produces a list of `FetchEvent`s recording the network
calls and file writes performed, so absence of a network call is the
absence of the corresponding event.  `sys.exit()` on a connection error is
modelled as the run ending with `RunResult.aborted`; carrying on to the
end of the film list is `RunResult.completed`.  An image is modelled by
its dimensions, which is all `download_poster`'s resize touches
(`im.width // SHRINK_FACTOR`, `im.height // SHRINK_FACTOR`).
-/

/-- `SHRINK_FACTOR` from `src/utils/poster_utils.py`. -/
def SHRINK_FACTOR : Nat := 2

/-- An image, abstracted to its pixel dimensions. -/
structure ImageData where
  width : Nat
  height : Nat
deriving DecidableEq, Repr

/-- One film row's fields used by the loop (`film['Name']`, `film['URL']`). -/
structure FilmEntry where
  name : String
  url : String
deriving DecidableEq, Repr

/-- Outcome of one `requests.get`: data, or a raised `ConnectionError`. -/
inductive FetchOutcome (α : Type) where
  | ok : α → FetchOutcome α
  | connError : FetchOutcome α

/-- The environment of a run: page text per film URL, poster bytes per
poster URL, and the poster-URL extraction from page text
(`get_poster_url`, whose BeautifulSoup parsing is external). -/
structure FetchOracle where
  pageHtml : String → FetchOutcome String
  posterBytes : String → FetchOutcome ImageData
  posterUrlOf : String → Option String

/-- Observable side effects of the loop, in order. -/
inductive FetchEvent where
  | pageFetch : String → FetchEvent
  | posterFetch : String → FetchEvent
  | fileWrite : String → FetchEvent
deriving DecidableEq, Repr

/-- Abstract filesystem: newest write first. -/
def FS : Type := List (String × ImageData)

/-- `Path.exists` on the abstract filesystem. -/
def fsHas (fs : FS) (p : String) : Bool :=
  fs.any (fun e => decide (e.1 = p))

/-- Read a file's contents (most recent write wins). -/
def fsLookup : FS → String → Option ImageData
  | [], _ => none
  | e :: t, p => if e.1 = p then some e.2 else fsLookup t p

/-- `resized.save(picture_path)`. -/
def fsWrite (fs : FS) (p : String) (img : ImageData) : FS := (p, img) :: fs

/-- `Path(posters_dir) / Path(film_name + img_extension)` with the `.jpg`
extension used throughout the loop. -/
def posterPath (dir name : String) : String := dir ++ "/" ++ (name ++ ".jpg")

/-- `download_poster` from `src/utils/poster_utils.py`: the target path
`Path(download_location) / Path(film_name + extension)` and the saved
image, resized to `(im.width // SHRINK_FACTOR, im.height // SHRINK_FACTOR)`. -/
def download_poster (poster_contents : ImageData) (film_name : String)
    (download_location : String) (extension : String := ".jpg") :
    String × ImageData :=
  (download_location ++ "/" ++ (film_name ++ extension),
   ⟨poster_contents.width / SHRINK_FACTOR, poster_contents.height / SHRINK_FACTOR⟩)

/-- One iteration of the `get_posters` loop body for a single film:
resulting filesystem, emitted events, and whether the run aborts
(`sys.exit()` on a `ConnectionError`). -/
def processFilm (o : FetchOracle) (dir : String) (fs : FS) (film : FilmEntry) :
    FS × List FetchEvent × Bool :=
  if fsHas fs (posterPath dir film.name) then (fs, [], false)
  else
    match o.pageHtml film.url with
    | FetchOutcome.connError => (fs, [FetchEvent.pageFetch film.url], true)
    | FetchOutcome.ok html =>
      match o.posterUrlOf html with
      | none => (fs, [FetchEvent.pageFetch film.url], false)
      | some purl =>
        match o.posterBytes purl with
        | FetchOutcome.connError =>
            (fs, [FetchEvent.pageFetch film.url, FetchEvent.posterFetch purl], true)
        | FetchOutcome.ok img =>
            let saved := download_poster img film.name dir ".jpg"
            (fsWrite fs saved.1 saved.2,
             [FetchEvent.pageFetch film.url, FetchEvent.posterFetch purl,
              FetchEvent.fileWrite saved.1], false)

/-- How a run ends: the loop finished, or `sys.exit()` cut it short. -/
inductive RunResult where
  | completed : RunResult
  | aborted : RunResult
deriving DecidableEq, Repr

/-- `get_posters` from `src/utils/poster_utils.py`: process the films in
list order, stopping the whole run at the first `ConnectionError`. -/
def get_posters (o : FetchOracle) (films : List FilmEntry) (dir : String)
    (fs : FS) : FS × List FetchEvent × RunResult :=
  match films with
  | [] => (fs, [], RunResult.completed)
  | f :: rest =>
    let step := processFilm o dir fs f
    if step.2.2 then (step.1, step.2.1, RunResult.aborted)
    else
      let cont := get_posters o rest dir step.1
      (cont.1, step.2.1 ++ cont.2.1, cont.2.2)

/-! ### Orchestrator invariants -/

theorem processFilm_write (o : FetchOracle) (dir : String) (fs : FS)
    (f : FilmEntry) (html purl : String) (img : ImageData)
    (hex : fsHas fs (posterPath dir f.name) = false)
    (hpage : o.pageHtml f.url = FetchOutcome.ok html)
    (hurl : o.posterUrlOf html = some purl)
    (hbytes : o.posterBytes purl = FetchOutcome.ok img) :
    processFilm o dir fs f =
      (fsWrite fs (posterPath dir f.name)
        ⟨img.width / SHRINK_FACTOR, img.height / SHRINK_FACTOR⟩,
       [FetchEvent.pageFetch f.url, FetchEvent.posterFetch purl,
        FetchEvent.fileWrite (posterPath dir f.name)], false) := by
  simp only [processFilm, hex, Bool.false_eq_true, if_false, hpage, hurl, hbytes]
  rfl

theorem processFilm_preserves (o : FetchOracle) (dir : String) (fs : FS)
    (f : FilmEntry) (p : String) (hp : fsHas fs p = true) :
    fsHas (processFilm o dir fs f).1 p = true ∧
    fsLookup (processFilm o dir fs f).1 p = fsLookup fs p := by
  by_cases hex : fsHas fs (posterPath dir f.name) = true
  · simp [processFilm, hex, hp]
  · have hex' : fsHas fs (posterPath dir f.name) = false := by simpa using hex
    have hne : posterPath dir f.name ≠ p := fun h => by
      rw [h] at hex'
      rw [hp] at hex'
      cases hex'
    cases hpage : o.pageHtml f.url with
    | connError => simp [processFilm, hex', hpage, hp]
    | ok html =>
      cases hurl : o.posterUrlOf html with
      | none => simp [processFilm, hex', hpage, hurl, hp]
      | some purl =>
        cases hbytes : o.posterBytes purl with
        | connError => simp [processFilm, hex', hpage, hurl, hbytes, hp]
        | ok img =>
          rw [processFilm_write o dir fs f html purl img hex' hpage hurl hbytes]
          refine ⟨?_, ?_⟩
          · simp only [fsWrite, fsHas, List.any_cons, Bool.or_eq_true]
            simp only [fsHas] at hp
            exact Or.inr hp
          · simp [fsWrite, fsLookup, hne]

theorem get_posters_preserves (o : FetchOracle) (films : List FilmEntry)
    (dir : String) :
    ∀ (fs : FS) (p : String), fsHas fs p = true →
      fsHas (get_posters o films dir fs).1 p = true ∧
      fsLookup (get_posters o films dir fs).1 p = fsLookup fs p := by
  induction films with
  | nil => intro fs p hp; exact ⟨hp, rfl⟩
  | cons f rest ih =>
    intro fs p hp
    obtain ⟨hhas, hlook⟩ := processFilm_preserves o dir fs f p hp
    by_cases habort : (processFilm o dir fs f).2.2 = true
    · simp only [get_posters, habort, if_true]
      exact ⟨hhas, hlook⟩
    · have habort' : (processFilm o dir fs f).2.2 = false := by simpa using habort
      obtain ⟨hhas2, hlook2⟩ := ih (processFilm o dir fs f).1 p hhas
      simp only [get_posters, habort', Bool.false_eq_true, if_false]
      exact ⟨hhas2, hlook2.trans hlook⟩

/-- C4: a film whose poster file `<filmName>.jpg` already exists in the
posters directory is skipped: processing it touches no network
(no events at all, in particular no page or poster fetch), changes nothing,
and the whole run leaves the existing file's contents unchanged, so
re-running the fetch step is idempotent for already-downloaded films. -/
theorem C4_existing_poster_skipped (o : FetchOracle) (films : List FilmEntry)
    (dir : String) (fs : FS) (f : FilmEntry) (_hf : f ∈ films)
    (hex : fsHas fs (posterPath dir f.name) = true) :
    processFilm o dir fs f = (fs, [], false) ∧
    fsLookup (get_posters o films dir fs).1 (posterPath dir f.name) =
      fsLookup fs (posterPath dir f.name) := by
  refine ⟨by simp [processFilm, hex], ?_⟩
  exact (get_posters_preserves o films dir fs (posterPath dir f.name) hex).2

/-- Witness for C4: a one-film list whose poster is already on disk. -/
theorem C4_witness :
    processFilm
      ⟨fun _ => FetchOutcome.connError, fun _ => FetchOutcome.connError,
       fun _ => none⟩
      "posters" [("posters/A.jpg", ⟨4, 6⟩)] ⟨"A", "u"⟩ =
      ([("posters/A.jpg", ⟨4, 6⟩)], [], false) ∧
    fsLookup (get_posters
      ⟨fun _ => FetchOutcome.connError, fun _ => FetchOutcome.connError,
       fun _ => none⟩
      [⟨"A", "u"⟩] "posters" [("posters/A.jpg", ⟨4, 6⟩)]).1
      (posterPath "posters" "A") =
      fsLookup [("posters/A.jpg", ⟨4, 6⟩)] (posterPath "posters" "A") :=
  C4_existing_poster_skipped
    ⟨fun _ => FetchOutcome.connError, fun _ => FetchOutcome.connError,
     fun _ => none⟩
    [⟨"A", "u"⟩] "posters" [("posters/A.jpg", ⟨4, 6⟩)] ⟨"A", "u"⟩
    (by simp) (by decide)

theorem get_posters_append (o : FetchOracle) (dir : String)
    (rest : List FilmEntry) :
    ∀ (pre : List FilmEntry) (fs : FS),
      (get_posters o pre dir fs).2.2 = RunResult.completed →
      get_posters o (pre ++ rest) dir fs =
        ((get_posters o rest dir (get_posters o pre dir fs).1).1,
         (get_posters o pre dir fs).2.1 ++
           (get_posters o rest dir (get_posters o pre dir fs).1).2.1,
         (get_posters o rest dir (get_posters o pre dir fs).1).2.2) := by
  intro pre
  induction pre with
  | nil =>
    intro fs _
    simp [get_posters]
  | cons f pre' ih =>
    intro fs hdone
    by_cases habort : (processFilm o dir fs f).2.2 = true
    · exfalso
      simp only [get_posters, habort, if_true] at hdone
      cases hdone
    · have habort' : (processFilm o dir fs f).2.2 = false := by simpa using habort
      simp only [List.cons_append, get_posters, habort', Bool.false_eq_true,
        if_false, List.append_eq] at hdone ⊢
      rw [ih (processFilm o dir fs f).1 hdone]
      simp [List.append_assoc]

/-- C5: a `ConnectionError` raised during either the film-page fetch or
the poster-bytes fetch of some film is fatal for the whole run: after the
films already processed successfully, the run ends `aborted` right at the
failing film, no later film contributes any event (no further network
calls, no further writes), the filesystem is exactly as it was before the
failing film, and every poster file present at the start of the run still
holds its original contents.  The run result is always a value of
`RunResult` — the error never escapes to the caller. -/
theorem C5_conn_failure_fatal (o : FetchOracle) (dir : String) (fs0 : FS)
    (pre : List FilmEntry) (f : FilmEntry) (post : List FilmEntry)
    (hpre : (get_posters o pre dir fs0).2.2 = RunResult.completed)
    (hnotex : fsHas (get_posters o pre dir fs0).1 (posterPath dir f.name) = false)
    (hfail : o.pageHtml f.url = FetchOutcome.connError ∨
      ∃ html purl, o.pageHtml f.url = FetchOutcome.ok html ∧
        o.posterUrlOf html = some purl ∧
        o.posterBytes purl = FetchOutcome.connError) :
    get_posters o (pre ++ f :: post) dir fs0 =
      ((get_posters o pre dir fs0).1,
       (get_posters o pre dir fs0).2.1 ++
         (processFilm o dir (get_posters o pre dir fs0).1 f).2.1,
       RunResult.aborted) ∧
    ∀ p : String, fsHas fs0 p = true →
      fsLookup (get_posters o (pre ++ f :: post) dir fs0).1 p = fsLookup fs0 p := by
  set fs1 := (get_posters o pre dir fs0).1 with hfs1
  have hstep : (processFilm o dir fs1 f).1 = fs1 ∧
      (processFilm o dir fs1 f).2.2 = true := by
    rcases hfail with hconn | ⟨html, purl, hpage, hurl, hbytes⟩
    · simp [processFilm, hnotex, hconn]
    · simp [processFilm, hnotex, hpage, hurl, hbytes]
  have hrun : get_posters o (f :: post) dir fs1 =
      (fs1, (processFilm o dir fs1 f).2.1, RunResult.aborted) := by
    simp only [get_posters, hstep.2, if_true, hstep.1]
  have happ := get_posters_append o dir (f :: post) pre fs0 hpre
  rw [← hfs1, hrun] at happ
  refine ⟨happ, ?_⟩
  intro p hp
  rw [happ]
  have h1 := get_posters_preserves o pre dir fs0 p hp
  exact h1.2

/-- Witness for C5: a single film whose page fetch hits a connection
failure aborts the run with exactly one attempted network call. -/
theorem C5_witness :
    get_posters
      ⟨fun _ => FetchOutcome.connError, fun _ => FetchOutcome.connError,
       fun _ => none⟩
      ([] ++ (⟨"A", "u"⟩ : FilmEntry) :: []) "posters" [] =
      ([], [] ++ (processFilm
        ⟨fun _ => FetchOutcome.connError, fun _ => FetchOutcome.connError,
         fun _ => none⟩ "posters" [] ⟨"A", "u"⟩).2.1, RunResult.aborted) :=
  (C5_conn_failure_fatal
    ⟨fun _ => FetchOutcome.connError, fun _ => FetchOutcome.connError,
     fun _ => none⟩
    "posters" [] [] ⟨"A", "u"⟩ [] (by decide) (by decide)
    (Or.inl rfl)).1

/-- C6: when the film's detail page yields no poster-URL match
(`get_poster_url` returns `None`), the orchestrator performs the page
fetch only — no poster fetch, no file write — leaves the filesystem
unchanged, and continues with the remaining films in list order; the run
is not aborted by this soft failure. -/
theorem C6_no_poster_soft_failure (o : FetchOracle) (dir : String) (fs : FS)
    (f : FilmEntry) (rest : List FilmEntry) (html : String)
    (hnotex : fsHas fs (posterPath dir f.name) = false)
    (hpage : o.pageHtml f.url = FetchOutcome.ok html)
    (hnoposter : o.posterUrlOf html = none) :
    processFilm o dir fs f = (fs, [FetchEvent.pageFetch f.url], false) ∧
    get_posters o (f :: rest) dir fs =
      ((get_posters o rest dir fs).1,
       FetchEvent.pageFetch f.url :: (get_posters o rest dir fs).2.1,
       (get_posters o rest dir fs).2.2) := by
  have hstep : processFilm o dir fs f = (fs, [FetchEvent.pageFetch f.url], false) := by
    simp [processFilm, hnotex, hpage, hnoposter]
  refine ⟨hstep, ?_⟩
  simp only [get_posters, hstep, Bool.false_eq_true, if_false]
  simp

/-- Witness for C6: a film whose page contains no poster URL is skipped
softly and the (empty) remainder of the run completes. -/
theorem C6_witness :
    processFilm
      ⟨fun _ => FetchOutcome.ok "<html></html>", fun _ => FetchOutcome.connError,
       fun _ => none⟩ "posters" [] ⟨"A", "u"⟩ =
      ([], [FetchEvent.pageFetch "u"], false) :=
  (C6_no_poster_soft_failure
    ⟨fun _ => FetchOutcome.ok "<html></html>", fun _ => FetchOutcome.connError,
     fun _ => none⟩ "posters" [] ⟨"A", "u"⟩ [] "<html></html>"
    (by decide) rfl rfl).1

/-- C9: when a poster is fetched successfully, the orchestrator saves,
under the path `<postersDir>/<filmName>.jpg` built by `download_poster`,
an image whose width and height are half the original poster's (integer
division by `SHRINK_FACTOR = 2`), and the saved file is readable back with
exactly those dimensions. -/
theorem C9_poster_saved_half_size (o : FetchOracle) (dir : String) (fs : FS)
    (f : FilmEntry) (html purl : String) (img : ImageData)
    (hnotex : fsHas fs (posterPath dir f.name) = false)
    (hpage : o.pageHtml f.url = FetchOutcome.ok html)
    (hurl : o.posterUrlOf html = some purl)
    (hbytes : o.posterBytes purl = FetchOutcome.ok img) :
    posterPath dir f.name = dir ++ "/" ++ (f.name ++ ".jpg") ∧
    processFilm o dir fs f =
      (fsWrite fs (posterPath dir f.name) ⟨img.width / 2, img.height / 2⟩,
       [FetchEvent.pageFetch f.url, FetchEvent.posterFetch purl,
        FetchEvent.fileWrite (posterPath dir f.name)], false) ∧
    fsLookup (processFilm o dir fs f).1 (posterPath dir f.name) =
      some ⟨img.width / 2, img.height / 2⟩ := by
  have hstep := processFilm_write o dir fs f html purl img hnotex hpage hurl hbytes
  refine ⟨rfl, hstep, ?_⟩
  rw [hstep]
  simp [fsWrite, fsLookup, SHRINK_FACTOR]

/-- Witness for C9: a 9×7 poster is saved as a 4×3 image at
`posters/A.jpg`. -/
theorem C9_witness :
    posterPath "posters" "A" = "posters" ++ "/" ++ ("A" ++ ".jpg") ∧
    processFilm
      ⟨fun _ => FetchOutcome.ok "h", fun _ => FetchOutcome.ok ⟨9, 7⟩,
       fun _ => some "purl"⟩ "posters" [] ⟨"A", "u"⟩ =
      (fsWrite [] (posterPath "posters" "A") ⟨9 / 2, 7 / 2⟩,
       [FetchEvent.pageFetch "u", FetchEvent.posterFetch "purl",
        FetchEvent.fileWrite (posterPath "posters" "A")], false) ∧
    fsLookup (processFilm
      ⟨fun _ => FetchOutcome.ok "h", fun _ => FetchOutcome.ok ⟨9, 7⟩,
       fun _ => some "purl"⟩ "posters" [] ⟨"A", "u"⟩).1
      (posterPath "posters" "A") = some ⟨9 / 2, 7 / 2⟩ :=
  C9_poster_saved_half_size
    ⟨fun _ => FetchOutcome.ok "h", fun _ => FetchOutcome.ok ⟨9, 7⟩,
     fun _ => some "purl"⟩ "posters" [] ⟨"A", "u"⟩ "h" "purl" ⟨9, 7⟩
    (by decide) rfl rfl rfl
